import Mathlib

/-!
Verification of the reverse-mode autodiff tensor core in
`src/pyautograd/pyautograd/tensor/tensor.py`.

The numeric payloads (numpy `ndarray`s) are modelled by `NDA`: nested
rectangular lists of integers.  A rank-0 array is a single scalar, a rank-k+1
array is a list of rank-k arrays.  `Tensor` objects are modelled by `Node`
records; since the computation graph shares mutable nodes, a graph is a
`Store` (a list of nodes addressed by index) and dependencies refer to nodes
by index.  `Tensor.backward` is modelled by a fuel-indexed recursion
returning `Except`: a Python exception corresponds to `Except.error`, in
which case no post-state exists (the exception aborts the call).
-/

set_option maxHeartbeats 1000000

namespace Autograd

/-- Model of a dense n-dimensional numeric array (`numpy.ndarray`): either a
rank-0 scalar or a list of sub-arrays along the leading axis. -/
inductive NDA : Type where
  | scalar : Int → NDA
  | dim : List NDA → NDA

/-- Shape of an array, mirroring `ndarray.shape`: a scalar has shape `[]`,
a non-empty leading axis contributes its length. -/
def NDA.shape : NDA → List Nat
  | .scalar _ => []
  | .dim [] => [0]
  | .dim (r :: rs) => (rs.length + 1) :: r.shape

/-- Number of axes of an array (`ndarray.ndim`). -/
def NDA.ndim (a : NDA) : Nat := a.shape.length

mutual
/-- Rectangularity: all rows of every axis have a common shape, and no axis is
empty (the arrays handled by the claims are non-degenerate numpy arrays). -/
def NDA.wfa : NDA → Bool
  | .scalar _ => true
  | .dim [] => false
  | .dim (r :: rs) => r.wfa && NDA.wfaList r.shape rs
/-- All arrays in the list are well-formed and have the given shape. -/
def NDA.wfaList : List Nat → List NDA → Bool
  | _, [] => true
  | sh, a :: as => a.wfa && decide (a.shape = sh) && NDA.wfaList sh as
end

mutual
/-- Elementwise combination of two arrays of identical shape (used for the
in-place accumulation `grad.data += ...`); on mismatched structure it falls
back to the left operand, a case the lemmas exclude. -/
def NDA.ewSame (f : Int → Int → Int) : NDA → NDA → NDA
  | .scalar x, .scalar y => .scalar (f x y)
  | .dim r, .dim s => .dim (NDA.ewList f r s)
  | a, _ => a
/-- Pointwise `ewSame` over two lists of rows, truncating at the shorter. -/
def NDA.ewList (f : Int → Int → Int) : List NDA → List NDA → List NDA
  | a :: as, b :: bs => NDA.ewSame f a b :: NDA.ewList f as bs
  | _, _ => []
end

mutual
/-- Model of `numpy.zeros_like`. -/
def NDA.zerosLike : NDA → NDA
  | .scalar _ => .scalar 0
  | .dim r => .dim (NDA.zerosList r)
/-- `zerosLike` mapped over a list of rows. -/
def NDA.zerosList : List NDA → List NDA
  | [] => []
  | a :: as => a.zerosLike :: NDA.zerosList as
end

mutual
/-- Elementwise doubling of an array. -/
def NDA.double : NDA → NDA
  | .scalar x => .scalar (x + x)
  | .dim r => .dim (NDA.doubleList r)
/-- `double` mapped over a list of rows. -/
def NDA.doubleList : List NDA → List NDA
  | [] => []
  | a :: as => a.double :: NDA.doubleList as
end

/-- Broadcast an array to a target shape (given first), numpy-style: axes are
aligned from the trailing side, missing leading axes are added by replication,
and axes of size 1 are stretched by replication.  Returns `none` when the
array does not broadcast to the target (the numpy error case). -/
def NDA.bexpand : List Nat → NDA → Option NDA
  | [], b => if b.ndim = 0 then some b else none
  | t :: ts, b =>
    if b.ndim = ts.length + 1 then
      match b with
      | .scalar _ => none
      | .dim rows =>
        if rows.length = t then (rows.mapM (NDA.bexpand ts)).map NDA.dim
        else
          match rows with
          | [r] => (NDA.bexpand ts r).map (fun c => NDA.dim (List.replicate t c))
          | _ => none
    else
      if b.ndim ≤ ts.length then (NDA.bexpand ts b).map (fun c => NDA.dim (List.replicate t c))
      else none

/-- One step of the numpy broadcast shape algebra on reversed shapes: each
aligned pair of axis lengths must be equal or one of them must be 1. -/
def bcastRev : List Nat → List Nat → Option (List Nat)
  | [], t => some t
  | s, [] => some s
  | a :: s, b :: t =>
    if a = b then (bcastRev s t).map (a :: ·)
    else if a = 1 then (bcastRev s t).map (b :: ·)
    else if b = 1 then (bcastRev s t).map (a :: ·)
    else none

/-- The numpy broadcast of two shapes (aligned from the trailing axis). -/
def broadcastShapes (s t : List Nat) : Option (List Nat) :=
  (bcastRev s.reverse t.reverse).map List.reverse

/-- A binary elementwise numpy operation with broadcasting, e.g. the `+` in
`self.data + ensure_tensor(other).data`: both operands are broadcast to the
common shape and combined pointwise; `none` models the numpy shape error. -/
def NDA.bop (f : Int → Int → Int) (a b : NDA) : Option NDA :=
  match broadcastShapes a.shape b.shape with
  | none => none
  | some sh =>
    match NDA.bexpand sh a, NDA.bexpand sh b with
    | some a2, some b2 => some (NDA.ewSame f a2 b2)
    | _, _ => none

/-- The numpy in-place `lhs += rhs`: the right operand must broadcast to the
left operand's shape (in-place ops never grow the destination); `none` models
the numpy error raised otherwise. -/
def NDA.iaddArr (lhs rhs : NDA) : Option NDA :=
  (NDA.bexpand lhs.shape rhs).map (NDA.ewSame (· + ·) lhs)

/-- Pointwise sum of a list of same-shaped rows (sum over the leading axis). -/
def NDA.sumRows : List NDA → NDA
  | [] => .scalar 0
  | r :: rs => rs.foldl (NDA.ewSame (· + ·)) r

/-- Modelled from the spec: the broadcast-reduction applied by the gradient
functions of the operations module (absent from `src/`), with the target
shape given first: sum the upstream gradient over every axis where the target
shape has size 1 but the gradient does not (keeping the axis), assuming
leading extra axes were already summed away by `breduce`. -/
def NDA.breduceSame : List Nat → NDA → NDA
  | [], g => g
  | t :: ts, g =>
    match g with
    | .dim rows =>
      if t = 1 ∧ rows.length ≠ 1 then .dim [NDA.breduceSame ts (NDA.sumRows rows)]
      else .dim (rows.map (NDA.breduceSame ts))
    | .scalar _ => g

/-- Sum an array over its leading axis (identity on scalars). -/
def NDA.sumLead : NDA → NDA
  | .dim rows => NDA.sumRows rows
  | a => a

/-- Sum away the given number of leading axes. -/
def NDA.dropLead : Nat → NDA → NDA
  | 0, g => g
  | k + 1, g => NDA.dropLead k g.sumLead

/-- Modelled from the spec: the full broadcast-reduction rule of §4.2 item 4
for the operations module (absent from `src/`): sum over leading axes present
in the gradient but not in the target shape, then over axes where the target
has size 1 but the gradient does not, producing an array of the target shape. -/
def NDA.breduce (g : NDA) (target : List Nat) : NDA :=
  NDA.breduceSame target (NDA.dropLead (g.ndim - target.length) g)

/-! ## The tensor node model

A `Tensor` object of `tensor.py` is a heap object; the computation graph
shares nodes, so tensors live in a `Store` (list of `Node`s addressed by
index) and a `Dependency`'s `tensor` field is a store index.  The gradient
accumulator `self.grad` is itself a `Tensor` in the source, but only its
`data` payload is ever read or written, so it is modelled by its payload. -/

/-- Model of the `Dependency` named tuple: the input tensor (a store index)
and the local gradient function `grad_fn`. -/
structure Dep where
  tensorId : Nat
  gradFn : NDA → NDA

/-- Model of a `Tensor` object: `data` is the `_data` payload, `shape` is the
`self.shape` attribute (set once in `__init__` from the initial data and
never updated by the `data` setter), `grad` is the payload of the optional
gradient accumulator. -/
structure Node where
  data : NDA
  requiresGrad : Bool
  dependsOn : List Dep
  shape : List Nat
  grad : Option NDA

/-- A computation graph: the tensors, addressed by index. -/
abbrev Store := List Node

/-- Model of `Tensor.zero_grad`: `self.grad = Tensor(np.zeros_like(self.data))`. -/
def Node.zeroGrad (t : Node) : Node :=
  { t with grad := some t.data.zerosLike }

/-- Model of `Tensor.__init__` (with the `depends_on` list passed by value;
the aliasing of the shared mutable default list is modelled separately by
`ListHeap` below): stores the payload, the flag and the dependency list,
records `shape` from the initial data, sets `grad` to `None`, and calls
`zero_grad` when `requires_grad` is true. -/
def Tensor.init (d : NDA) (requiresGrad : Bool) (dependsOn : List Dep) : Node :=
  let t : Node :=
    { data := d, requiresGrad := requiresGrad, dependsOn := dependsOn,
      shape := d.shape, grad := none }
  if requiresGrad then t.zeroGrad else t

/-- Model of the `Tensor.data` property setter: `self._data = new_data;
self.grad = None`.  Note that `self.shape` is not updated. -/
def Node.setData (t : Node) (newData : NDA) : Node :=
  { t with data := newData, grad := none }

/-- Model of the `Tensorable` union accepted by `ensure_tensor`. -/
inductive Tensorable where
  | tensor : Node → Tensorable
  | scalar : Int → Tensorable
  | array : NDA → Tensorable

/-- Model of `ensure_tensor`: a `Tensor` passes through, anything else is
wrapped in a fresh non-tracked zero-dependency tensor. -/
def ensureTensor : Tensorable → Node
  | .tensor t => t
  | .scalar x => Tensor.init (NDA.scalar x) false []
  | .array a => Tensor.init a false []

/-- Model of `Tensor.__iadd__`: `self.data = self.data + ensure_tensor(other).data`
(through the `data` setter, which clears the gradient); `none` models the
numpy shape error. -/
def Node.iaddT (t : Node) (other : Tensorable) : Option Node :=
  (NDA.bop (· + ·) t.data (ensureTensor other).data).map t.setData

/-- Model of `Tensor.__isub__`: `self.data = self.data - ensure_tensor(other).data`. -/
def Node.isubT (t : Node) (other : Tensorable) : Option Node :=
  (NDA.bop (· - ·) t.data (ensureTensor other).data).map t.setData

/-- Model of `Tensor.__imul__`: `self.data = self.data * ensure_tensor(other).data`. -/
def Node.imulT (t : Node) (other : Tensorable) : Option Node :=
  (NDA.bop (· * ·) t.data (ensureTensor other).data).map t.setData

/-- The ways a `backward` call can abort with a Python exception.
`ungradableTensor` is the failed `assert self.requires_grad`;
`missingSeedGradient` is the `RuntimeError` for a missing seed on a
non-scalar root; `gradAbsent` is the `AttributeError` raised by
`self.grad.data` when `self.grad` is `None`; `shapeMismatch` is the numpy
error of a non-broadcastable `+=`; `invalidRef` is a dangling store index
(impossible in the source, where dependencies are direct references);
`outOfFuel` marks exhaustion of the recursion bound. -/
inductive BackErr where
  | ungradableTensor
  | missingSeedGradient
  | gradAbsent
  | shapeMismatch
  | invalidRef
  | outOfFuel
deriving DecidableEq

/-- The seed-defaulting step of `Tensor.backward`: a supplied seed is used as
is; an omitted seed defaults to the scalar 1 when `self.shape == ()` and
otherwise raises. -/
def seedFor (n : Node) (gradArg : Option NDA) : Except BackErr NDA :=
  match gradArg with
  | some g => .ok g
  | none =>
    if n.shape = [] then .ok (NDA.scalar 1) else .error .missingSeedGradient

/-- The accumulation step `self.grad.data += grad.data` of `Tensor.backward`:
fails if the accumulator is absent (`AttributeError` on `None`) or if the
seed does not broadcast into it. -/
def accumulate (n : Node) (g : NDA) : Except BackErr NDA :=
  match n.grad with
  | none => .error .gradAbsent
  | some gr =>
    match NDA.iaddArr gr g with
    | none => .error .shapeMismatch
    | some gr2 => .ok gr2

/-- Model of `Tensor.backward`, fuel-indexed to make the recursion over the
(acyclic) graph a total function: assert `requires_grad`, default the seed,
accumulate it into `self.grad`, then for every dependency `(input, grad_fn)`
recurse into `input` with seed `grad_fn(grad.data)` (the recursive call in
the source wraps it in a fresh `Tensor`, of which only `.data` is ever read). -/
def backwardAux : Nat → Store → Nat → Option NDA → Except BackErr Store
  | 0, _, _, _ => .error .outOfFuel
  | fuel + 1, s, i, gradArg =>
    match s[i]? with
    | none => .error .invalidRef
    | some n =>
      if n.requiresGrad = false then .error .ungradableTensor
      else
        match seedFor n gradArg with
        | .error e => .error e
        | .ok g =>
          match accumulate n g with
          | .error e => .error e
          | .ok gr2 =>
            n.dependsOn.foldlM
              (fun st d => backwardAux fuel st d.tensorId (some (d.gradFn g)))
              (s.set i { n with grad := some gr2 })

/-- `Tensor.backward` on the node at index `i`: since every dependency of a
node was constructed strictly earlier (smaller index), fuel `i + 1` bounds
the recursion depth of any run that terminates in the source. -/
def Tensor.backward (s : Store) (i : Nat) (gradArg : Option NDA) : Except BackErr Store :=
  backwardAux (i + 1) s i gradArg

/-- The gradient payload currently accumulated at index `j`. -/
def gradAt (s : Store) (j : Nat) : Option NDA :=
  (s[j]?).bind Node.grad

/-! ## The shared mutable default `depends_on` list

`Tensor.__init__` declares `depends_on: List[Dependency] = []`.  In Python
the default list object is created once, when the function is defined, and
every call that omits the argument binds the very same list object.  This
fragment models exactly that aliasing: list objects live in a `ListHeap`,
a tensor stores the address of its `depends_on` list, and the default
address is the single cell allocated at definition time.  The payload of a
dependency record is irrelevant to the aliasing and is abstracted to a
token. -/

/-- Abstract token standing for one `Dependency` record. -/
abbrev DepTok := Nat

/-- The heap of Python list objects holding dependency lists. -/
structure ListHeap where
  cells : List (List DepTok)

/-- The address of the one default list object, allocated when
`Tensor.__init__` is defined. -/
def defaultDepsCell : Nat := 0

/-- The heap at module-load time: only the (empty) default list exists. -/
def initialHeap : ListHeap := ⟨[[]]⟩

/-- A `Tensor` as far as `depends_on` aliasing is concerned: it stores the
address of its dependency-list object. -/
structure PyTensor where
  dataVal : NDA
  requiresGrad : Bool
  dependsOnRef : Nat

/-- Constructing a leaf tensor without an explicit `depends_on` argument:
the new tensor aliases the shared default list object; the heap is unchanged. -/
def mkTensorDefaultDeps (h : ListHeap) (d : NDA) : ListHeap × PyTensor :=
  (h, { dataVal := d, requiresGrad := false, dependsOnRef := defaultDepsCell })

/-- Constructing a tensor with an explicitly passed (fresh) list. -/
def mkTensorWithDeps (h : ListHeap) (d : NDA) (deps : List DepTok) : ListHeap × PyTensor :=
  ({ cells := h.cells ++ [deps] },
   { dataVal := d, requiresGrad := false, dependsOnRef := h.cells.length })

/-- Reading `t.depends_on`: dereference the list object. -/
def dependsOnOf (h : ListHeap) (t : PyTensor) : List DepTok :=
  h.cells.getD t.dependsOnRef []

/-- Mutating `t.depends_on.append(d)` in place. -/
def appendDep (h : ListHeap) (t : PyTensor) (d : DepTok) : ListHeap :=
  { cells := h.cells.set t.dependsOnRef (h.cells.getD t.dependsOnRef [] ++ [d]) }

/-- Modelled from the spec: `_add` from the operations module (imported by
`Tensor.__add__` at line 63 of tensor.py but absent from `src/`).  Per §4.2 of
the spec it computes the broadcast sum of the two payloads, marks the result
as requiring grad iff either input does, and attaches, for each input that
requires grad, a dependency whose `grad_fn` broadcast-reduces the upstream
gradient to that input's shape.  The result is a new tensor appended to the
store; its index is returned. -/
def specAdd (s : Store) (ia ib : Nat) : Option (Store × Nat) :=
  match s[ia]?, s[ib]? with
  | some a, some b =>
    match NDA.bop (· + ·) a.data b.data with
    | some dataC =>
      some (s ++ [Tensor.init dataC (a.requiresGrad || b.requiresGrad)
        ((if a.requiresGrad then [⟨ia, fun g => NDA.breduce g a.data.shape⟩] else []) ++
         (if b.requiresGrad then [⟨ib, fun g => NDA.breduce g b.data.shape⟩] else []))],
        s.length)
    | none => none
  | _, _ => none

/-- The §3 invariant of the spec: a present gradient has exactly the shape of
the data. -/
def gradShapeInv (t : Node) : Prop :=
  ∀ g, t.grad = some g → g.shape = t.data.shape

/-- The store-level invariant: every present gradient has the shape of its
node's data and is a well-formed (rectangular) array. -/
def StoreInv (s : Store) : Prop :=
  ∀ (j : Nat) (n : Node), s[j]? = some n → ∀ g, n.grad = some g →
    g.shape = n.data.shape ∧ g.wfa = true

/-! ## Relational framework for the backward walk

`backward` only ever mutates `grad` fields, and the amount it adds at each
node is determined by the graph structure and the incoming seed, not by the
current gradient contents.  `GraphEq` relates two stores with identical graph
structure and shape-compatible well-formed gradients; `GradStep` relates the
gradients of corresponding nodes before/after two parallel runs that add the
same delta. -/

/-- The gradient accumulators agree in presence and shape and are well-formed. -/
def OptGradEq : Option NDA → Option NDA → Prop
  | none, none => True
  | some a, some b => a.shape = b.shape ∧ a.wfa = true ∧ b.wfa = true
  | _, _ => False

/-- Two nodes with the same structure (data, flag, shape attribute and
dependencies) and compatible gradients. -/
abbrev NodeEq (a b : Node) : Prop :=
  a.data = b.data ∧ a.requiresGrad = b.requiresGrad ∧ a.shape = b.shape ∧
    a.dependsOn = b.dependsOn ∧ OptGradEq a.grad b.grad

/-- Two stores describing the same graph with compatible gradients. -/
abbrev GraphEq (s t : Store) : Prop :=
  s.length = t.length ∧
    ∀ (j : Nat) (a b : Node), s[j]? = some a → t[j]? = some b → NodeEq a b

/-- Either neither gradient moved, or both received the same well-formed,
shape-matching delta. -/
abbrev GradStep (gs gs2 gt gt2 : Option NDA) : Prop :=
  (gs2 = gs ∧ gt2 = gt) ∨
  ∃ x y δ, gs = some x ∧ gt = some y ∧
    gs2 = some (NDA.ewSame (· + ·) x δ) ∧ gt2 = some (NDA.ewSame (· + ·) y δ) ∧
    x.wfa = true ∧ y.wfa = true ∧ δ.wfa = true ∧
    δ.shape = x.shape ∧ y.shape = x.shape

/-- `GradStep` at every index of two parallel runs. -/
abbrev StepAll (s s2 t t2 : Store) : Prop :=
  ∀ j, GradStep (gradAt s j) (gradAt s2 j) (gradAt t j) (gradAt t2 j)

/-! ## Array lemmas -/

/-- Structural induction for the nested inductive `NDA`, giving the inductive
hypothesis for every row of a `dim`. -/
theorem NDA.ind {P : NDA → Prop} (hs : ∀ x, P (NDA.scalar x))
    (hd : ∀ rows, (∀ r ∈ rows, P r) → P (NDA.dim rows)) : ∀ a, P a := by
  intro a
  induction a using NDA.rec (motive_2 := fun rows => ∀ r ∈ rows, P r) with
  | scalar x => exact hs x
  | dim rows ih => exact hd rows ih
  | nil => rename_i r h; exact absurd h (List.not_mem_nil r)
  | cons head tail ihh iht =>
    rename_i r h
    rcases List.mem_cons.mp h with h1 | h2
    · exact h1 ▸ ihh
    · exact iht r h2

theorem NDA.wfa_dim_cons (r : NDA) (rs : List NDA) :
    NDA.wfa (NDA.dim (r :: rs)) = (r.wfa && NDA.wfaList r.shape rs) := rfl

/-- Membership unfolding of `wfaList`. -/
theorem NDA.wfaList_iff (sh : List Nat) (rs : List NDA) :
    NDA.wfaList sh rs = true ↔ ∀ x ∈ rs, x.wfa = true ∧ x.shape = sh := by
  induction rs with
  | nil => simp [NDA.wfaList]
  | cons b bs ih =>
    simp only [NDA.wfaList, Bool.and_eq_true, decide_eq_true_eq, List.mem_cons]
    constructor
    · rintro ⟨⟨h1, h2⟩, h3⟩ x hx
      rcases hx with rfl | hx
      · exact ⟨h1, h2⟩
      · exact (ih.mp h3) x hx
    · intro h
      exact ⟨⟨(h b (Or.inl rfl)).1, (h b (Or.inl rfl)).2⟩,
        ih.mpr (fun x hx => h x (Or.inr hx))⟩

/-- Unfolding of well-formedness of a `dim` into its rows. -/
theorem NDA.wfa_dim_iff (rows : List NDA) :
    NDA.wfa (NDA.dim rows) = true ↔
      ∃ sh, rows ≠ [] ∧ ∀ r ∈ rows, r.wfa = true ∧ r.shape = sh := by
  match rows with
  | [] => simp [NDA.wfa]
  | r :: rs =>
    rw [NDA.wfa_dim_cons, Bool.and_eq_true, NDA.wfaList_iff]
    constructor
    · rintro ⟨h1, h2⟩
      refine ⟨r.shape, by simp, fun x hx => ?_⟩
      rcases List.mem_cons.mp hx with rfl | hx
      · exact ⟨h1, rfl⟩
      · exact h2 x hx
    · rintro ⟨sh, -, hall⟩
      have hr := hall r (by simp)
      refine ⟨hr.1, fun x hx => ?_⟩
      have hx2 := hall x (List.mem_cons_of_mem _ hx)
      exact ⟨hx2.1, hx2.2.trans hr.2.symm⟩

/-- The shape of a well-formed array has only positive axis lengths. -/
theorem NDA.shape_pos : ∀ a : NDA, a.wfa = true → ∀ d ∈ a.shape, 0 < d := by
  intro a
  induction a using NDA.ind with
  | hs x => intro _ d hd; simp [NDA.shape] at hd
  | hd rows ih =>
    intro hwf d hd
    match rows with
    | [] => simp [NDA.wfa] at hwf
    | r :: rs =>
      rw [NDA.wfa_dim_cons, Bool.and_eq_true] at hwf
      simp only [NDA.shape, List.mem_cons] at hd
      rcases hd with rfl | hd
      · omega
      · exact ih r (by simp) hwf.1 d hd

/-- An array of empty shape is a scalar. -/
theorem NDA.shape_nil_scalar : ∀ b : NDA, b.shape = [] → ∃ x, b = NDA.scalar x := by
  intro b h
  match b with
  | .scalar x => exact ⟨x, rfl⟩
  | .dim [] => simp [NDA.shape] at h
  | .dim (s :: ss) => simp [NDA.shape] at h

theorem NDA.zerosList_eq_map (rs : List NDA) :
    NDA.zerosList rs = rs.map NDA.zerosLike := by
  induction rs with
  | nil => rfl
  | cons a as ih => simp [NDA.zerosList, ih]

theorem NDA.doubleList_eq_map (rs : List NDA) :
    NDA.doubleList rs = rs.map NDA.double := by
  induction rs with
  | nil => rfl
  | cons a as ih => simp [NDA.doubleList, ih]

theorem NDA.zerosLike_shape : ∀ a : NDA, a.zerosLike.shape = a.shape := by
  intro a
  induction a using NDA.ind with
  | hs x => rfl
  | hd rows ih =>
    match rows with
    | [] => rfl
    | r :: rs =>
      show NDA.shape (NDA.dim (r.zerosLike :: NDA.zerosList rs)) = _
      simp [NDA.shape, NDA.zerosList_eq_map, ih r (by simp)]

theorem NDA.wfa_zerosLike : ∀ a : NDA, a.wfa = true → a.zerosLike.wfa = true := by
  intro a
  induction a using NDA.ind with
  | hs x => intro _; rfl
  | hd rows ih =>
    intro hwf
    rw [NDA.wfa_dim_iff] at hwf
    obtain ⟨sh, hne, hall⟩ := hwf
    show NDA.wfa (NDA.dim (NDA.zerosList rows)) = true
    rw [NDA.wfa_dim_iff]
    refine ⟨sh, ?_, ?_⟩
    · simp only [NDA.zerosList_eq_map]
      exact fun h => hne (List.map_eq_nil_iff.mp h)
    · intro x hx
      rw [NDA.zerosList_eq_map] at hx
      obtain ⟨r, hr, rfl⟩ := List.mem_map.mp hx
      exact ⟨ih r hr (hall r hr).1, (NDA.zerosLike_shape r).trans (hall r hr).2⟩

theorem NDA.double_zerosLike : ∀ a : NDA, a.zerosLike.double = a.zerosLike := by
  intro a
  induction a using NDA.ind with
  | hs x => simp [NDA.zerosLike, NDA.double]
  | hd rows ih =>
    show NDA.double (NDA.dim (NDA.zerosList rows)) = NDA.zerosLike (NDA.dim rows)
    simp only [NDA.double, NDA.zerosLike, NDA.doubleList_eq_map, NDA.zerosList_eq_map,
      List.map_map, NDA.dim.injEq]
    exact List.map_congr_left (fun r hr => ih r hr)

theorem NDA.ewList_eq_zipWith (f : Int → Int → Int) :
    ∀ as bs : List NDA, NDA.ewList f as bs = List.zipWith (NDA.ewSame f) as bs := by
  intro as
  induction as with
  | nil => intro bs; cases bs <;> rfl
  | cons a as ih => intro bs; cases bs <;> simp [NDA.ewList, ih]

theorem List.zipWith_eq_map_zip {α : Type} (f : α → α → α) :
    ∀ as bs : List α, List.zipWith f as bs = (as.zip bs).map (fun p => f p.1 p.2) := by
  intro as
  induction as with
  | nil => intro bs; cases bs <;> rfl
  | cons a as ih => intro bs; cases bs <;> simp [ih]

/-- Shape of a same-shape elementwise combination. -/
theorem NDA.ewSame_shape (f : Int → Int → Int) :
    ∀ a b : NDA, b.shape = a.shape → (NDA.ewSame f a b).shape = a.shape := by
  intro a
  induction a using NDA.ind with
  | hs x =>
    intro b hsh
    obtain ⟨y, rfl⟩ := NDA.shape_nil_scalar b hsh
    rfl
  | hd rows ih =>
    intro b hsh
    match b with
    | .scalar y =>
      exfalso
      match rows with
      | [] => simp [NDA.shape] at hsh
      | r :: rs => simp [NDA.shape] at hsh
    | .dim bs =>
      show NDA.shape (NDA.dim (NDA.ewList f rows bs)) = _
      match rows, bs with
      | [], [] => rfl
      | [], s :: ss => simp [NDA.shape] at hsh
      | r :: rs, [] => simp [NDA.shape] at hsh
      | r :: rs, s :: ss =>
        simp only [NDA.shape, List.cons.injEq] at hsh
        show NDA.shape (NDA.dim (NDA.ewSame f r s :: NDA.ewList f rs ss)) = _
        simp only [NDA.shape, NDA.ewList_eq_zipWith, List.length_zipWith,
          ih r (by simp) s hsh.2, List.cons.injEq, and_true]
        omega

/-- The rows of a well-formed `dim` all have the shape given by the tail of
the whole array's shape. -/
theorem NDA.wfa_dim_rows {rows : List NDA} (h : NDA.wfa (NDA.dim rows) = true) :
    ∀ r ∈ rows, r.wfa = true ∧ (NDA.dim rows).shape = rows.length :: r.shape := by
  rw [NDA.wfa_dim_iff] at h
  obtain ⟨sh, hne, hall⟩ := h
  intro r hr
  refine ⟨(hall r hr).1, ?_⟩
  match rows with
  | [] => exact absurd rfl hne
  | x :: xs =>
    show (xs.length + 1) :: x.shape = _
    rw [(hall x (by simp)).2, (hall r hr).2]
    simp

/-- Lengths of two `dim`s of equal shape agree. -/
theorem NDA.dim_shape_len {as bs : List NDA}
    (h : (NDA.dim bs).shape = (NDA.dim as).shape) : bs.length = as.length := by
  match as, bs with
  | [], [] => rfl
  | [], b :: bs2 => simp [NDA.shape] at h
  | a :: as2, [] => simp [NDA.shape] at h
  | a :: as2, b :: bs2 =>
    simp only [NDA.shape, List.cons.injEq] at h
    simpa using h.1

/-- Simultaneous structural induction over two well-formed arrays of the same
shape: corresponding rows pair up. -/
theorem NDA.pair_ind {P : NDA → NDA → Prop}
    (hs : ∀ x y, P (NDA.scalar x) (NDA.scalar y))
    (hd : ∀ as bs, NDA.wfa (NDA.dim as) = true → NDA.wfa (NDA.dim bs) = true →
      (NDA.dim bs).shape = (NDA.dim as).shape →
      (∀ p ∈ as.zip bs, p.2.shape = p.1.shape ∧ P p.1 p.2) →
      P (NDA.dim as) (NDA.dim bs)) :
    ∀ a b, a.wfa = true → b.wfa = true → b.shape = a.shape → P a b := by
  intro a
  induction a using NDA.ind with
  | hs x =>
    intro b _ _ hsh
    obtain ⟨y, rfl⟩ := NDA.shape_nil_scalar b hsh
    exact hs x y
  | hd rows ih =>
    intro b hwa hwb hsh
    match b with
    | .scalar y =>
      exfalso
      match rows with
      | [] => simp [NDA.shape] at hsh
      | r :: rs => simp [NDA.shape] at hsh
    | .dim bs =>
      apply hd _ _ hwa hwb hsh
      intro p hp
      have hp1 : p.1 ∈ rows := (List.of_mem_zip hp).1
      have hp2 : p.2 ∈ bs := (List.of_mem_zip hp).2
      have ha := NDA.wfa_dim_rows hwa p.1 hp1
      have hb := NDA.wfa_dim_rows hwb p.2 hp2
      have hps : p.2.shape = p.1.shape := by
        have h2 := hb.2
        rw [hsh] at h2
        have h3 := ha.2.symm.trans h2
        injection h3 with h4 h5
        exact h5.symm
      exact ⟨hps, ih p.1 hp1 p.2 ha.1 hb.1 hps⟩

/-- A same-shape elementwise combination of well-formed arrays is well-formed. -/
theorem NDA.ewSame_wf (f : Int → Int → Int) :
    ∀ a b : NDA, a.wfa = true → b.wfa = true → b.shape = a.shape →
      (NDA.ewSame f a b).wfa = true := by
  apply NDA.pair_ind
  · intro x y; rfl
  · intro as bs hwa hwb hsh hpairs
    show NDA.wfa (NDA.dim (NDA.ewList f as bs)) = true
    rw [NDA.ewList_eq_zipWith, NDA.wfa_dim_iff]
    have hlen := NDA.dim_shape_len hsh
    match as, bs with
    | [], _ => simp [NDA.wfa] at hwa
    | a :: as2, [] => simp [NDA.wfa] at hwb
    | a :: as2, b :: bs2 =>
      obtain ⟨sha, hne, halla⟩ := NDA.wfa_dim_iff _ |>.mp hwa
      refine ⟨sha, by simp, ?_⟩
      rw [List.zipWith_eq_map_zip]
      intro x hx
      obtain ⟨p, hp, rfl⟩ := List.mem_map.mp hx
      have hpp := hpairs p hp
      have hp1 : p.1 ∈ a :: as2 := (List.of_mem_zip hp).1
      constructor
      · exact hpp.2
      · rw [NDA.ewSame_shape f p.1 p.2 hpp.1]
        exact (halla p.1 hp1).2

/-- Adding a zeros array (on the left) is the identity, for matching shapes. -/
theorem NDA.addSame_zero_left :
    ∀ a b : NDA, a.wfa = true → b.wfa = true → b.shape = a.shape →
      NDA.ewSame (· + ·) a.zerosLike b = b := by
  apply NDA.pair_ind
  · intro x y; show NDA.scalar (0 + y) = NDA.scalar y; rw [Int.zero_add]
  · intro as bs hwa hwb hsh hpairs
    show NDA.ewSame (· + ·) (NDA.dim (NDA.zerosList as)) (NDA.dim bs) = NDA.dim bs
    show NDA.dim (NDA.ewList (· + ·) (NDA.zerosList as) bs) = NDA.dim bs
    rw [NDA.ewList_eq_zipWith, NDA.zerosList_eq_map, NDA.dim.injEq]
    have hlen := NDA.dim_shape_len hsh
    calc List.zipWith (NDA.ewSame (· + ·)) (as.map NDA.zerosLike) bs
        = (as.zip bs).map (fun p => NDA.ewSame (· + ·) p.1.zerosLike p.2) := by
          rw [List.zipWith_map_left, List.zipWith_eq_map_zip]
      _ = (as.zip bs).map (fun p => p.2) := List.map_congr_left
          (fun p hp => (hpairs p hp).2)
      _ = bs := List.map_snd_zip as bs (le_of_eq hlen)

/-- Adding an array to itself doubles it elementwise (no shape assumptions). -/
theorem NDA.addSame_self : ∀ a : NDA, NDA.ewSame (· + ·) a a = a.double := by
  intro a
  induction a using NDA.ind with
  | hs x => rfl
  | hd rows ih =>
    show NDA.dim (NDA.ewList (· + ·) rows rows) = NDA.dim (NDA.doubleList rows)
    rw [NDA.dim.injEq, NDA.doubleList_eq_map, NDA.ewList_eq_zipWith]
    induction rows with
    | nil => rfl
    | cons r rs ihl =>
      simp only [List.zipWith_cons_cons, List.map_cons, List.cons.injEq]
      exact ⟨ih r (by simp), ihl (fun x hx => ih x (List.mem_cons_of_mem _ hx))⟩

/-- List-level associativity step, given rowwise associativity for aligned
pairs and uniform shapes. -/
theorem NDA.ewList_assoc_aux (sha : List Nat) :
    ∀ as bs cs : List NDA,
      (∀ p ∈ as.zip bs, ∀ c : NDA, c.wfa = true → c.shape = p.1.shape →
        NDA.ewSame (· + ·) (NDA.ewSame (· + ·) p.1 p.2) c
          = NDA.ewSame (· + ·) p.1 (NDA.ewSame (· + ·) p.2 c)) →
      (∀ a ∈ as, a.shape = sha) →
      (∀ c ∈ cs, c.wfa = true ∧ c.shape = sha) →
      NDA.ewList (· + ·) (NDA.ewList (· + ·) as bs) cs
        = NDA.ewList (· + ·) as (NDA.ewList (· + ·) bs cs) := by
  intro as
  induction as with
  | nil => intro bs cs _ _ _; cases bs <;> cases cs <;> rfl
  | cons a as ih =>
    intro bs cs hp ha hc
    match bs, cs with
    | [], [] => rfl
    | [], c :: cs => rfl
    | b :: bs, [] => rfl
    | b :: bs, c :: cs =>
      simp only [NDA.ewList, List.cons.injEq]
      constructor
      · exact hp (a, b) (by simp [List.zip_cons_cons]) c (hc c (by simp)).1
          (by rw [(hc c (by simp)).2, ha a (by simp)])
      · exact ih bs cs
          (fun p hpm => hp p (by simp only [List.zip_cons_cons, List.mem_cons]; exact Or.inr hpm))
          (fun x hx => ha x (List.mem_cons_of_mem _ hx))
          (fun x hx => hc x (List.mem_cons_of_mem _ hx))

/-- Associativity of same-shape addition on well-formed arrays. -/
theorem NDA.addSame_assoc :
    ∀ a b c : NDA, a.wfa = true → b.wfa = true → c.wfa = true →
      b.shape = a.shape → c.shape = a.shape →
      NDA.ewSame (· + ·) (NDA.ewSame (· + ·) a b) c
        = NDA.ewSame (· + ·) a (NDA.ewSame (· + ·) b c) := by
  have key : ∀ a b : NDA, a.wfa = true → b.wfa = true → b.shape = a.shape →
      ∀ c : NDA, c.wfa = true → c.shape = a.shape →
        NDA.ewSame (· + ·) (NDA.ewSame (· + ·) a b) c
          = NDA.ewSame (· + ·) a (NDA.ewSame (· + ·) b c) := by
    apply NDA.pair_ind (P := fun a b => ∀ c : NDA, c.wfa = true → c.shape = a.shape →
      NDA.ewSame (· + ·) (NDA.ewSame (· + ·) a b) c
        = NDA.ewSame (· + ·) a (NDA.ewSame (· + ·) b c))
    · intro x y c _ hsh
      obtain ⟨z, rfl⟩ := NDA.shape_nil_scalar c hsh
      show NDA.scalar (x + y + z) = NDA.scalar (x + (y + z))
      rw [Int.add_assoc]
    · intro as bs hwa hwb hsh hpairs c hwc hshc
      match c with
      | .scalar z =>
        exfalso
        match as with
        | [] => simp [NDA.shape] at hshc
        | r :: rs => simp [NDA.shape] at hshc
      | .dim cs =>
        show NDA.dim (NDA.ewList (· + ·) (NDA.ewList (· + ·) as bs) cs)
          = NDA.dim (NDA.ewList (· + ·) as (NDA.ewList (· + ·) bs cs))
        rw [NDA.dim.injEq]
        have hlac := NDA.dim_shape_len hshc
        have hcs := NDA.wfa_dim_rows hwc
        have has := NDA.wfa_dim_rows hwa
        apply NDA.ewList_assoc_aux ((NDA.dim as).shape.tail) as bs cs
        · intro p hp c2 hwc2 hshc2
          exact (hpairs p hp).2 c2 hwc2 hshc2
        · intro x hx
          rw [(has x hx).2]
          rfl
        · intro x hx
          refine ⟨(hcs x hx).1, ?_⟩
          have h2 := (hcs x hx).2
          rw [hshc, hlac] at h2
          rw [h2]
          rfl
  intro a b c hwa hwb hwc hsb hsc
  exact key a b hwa hwb hsb c hwc hsc

theorem NDA.mapM_bexpand_sound (ts : List Nat) : ∀ (rs cs : List NDA),
    rs.mapM (NDA.bexpand ts) = some cs →
      cs.length = rs.length ∧ ∀ c ∈ cs, ∃ r ∈ rs, NDA.bexpand ts r = some c := by
  intro rs
  induction rs with
  | nil =>
    intro cs h
    simp only [List.mapM_nil, Option.pure_def, Option.some.injEq] at h
    subst h
    simp
  | cons a as ih =>
    intro cs h
    rw [List.mapM_cons] at h
    cases hb : NDA.bexpand ts a with
    | none => rw [hb] at h; simp at h
    | some c =>
      rw [hb] at h
      cases hbs : as.mapM (NDA.bexpand ts) with
      | none => rw [hbs] at h; simp at h
      | some cs2 =>
        rw [hbs] at h
        simp at h
        subst h
        obtain ⟨hlen, hmem⟩ := ih cs2 hbs
        refine ⟨by simp [hlen], ?_⟩
        intro x hx
        rcases List.mem_cons.mp hx with rfl | hx
        · exact ⟨a, by simp, hb⟩
        · obtain ⟨r, hr, hrr⟩ := hmem x hx
          exact ⟨r, List.mem_cons_of_mem _ hr, hrr⟩

theorem NDA.shape_dim_replicate (t0 : Nat) (h : 0 < t0) (c : NDA) :
    (NDA.dim (List.replicate t0 c)).shape = t0 :: c.shape := by
  match t0 with
  | n + 1 =>
    rw [List.replicate_succ]
    show NDA.shape (NDA.dim (c :: List.replicate n c)) = _
    simp [NDA.shape, List.length_replicate]

theorem NDA.wfa_dim_replicate (t0 : Nat) (h : 0 < t0) (c : NDA) (hc : c.wfa = true) :
    (NDA.dim (List.replicate t0 c)).wfa = true := by
  rw [NDA.wfa_dim_iff]
  refine ⟨c.shape, ?_, ?_⟩
  · simp only [ne_eq, List.replicate_eq_nil_iff]
    omega
  · intro r hr
    rw [List.eq_of_mem_replicate hr]
    exact ⟨hc, rfl⟩

/-- `bexpand` really produces the target shape (for positive targets). -/
theorem NDA.bexpand_shape : ∀ (t : List Nat) (b c : NDA),
    (∀ d ∈ t, 0 < d) → NDA.bexpand t b = some c → c.shape = t := by
  intro t
  induction t with
  | nil =>
    intro b c _ h
    simp only [NDA.bexpand] at h
    by_cases hb : b.ndim = 0
    · rw [if_pos hb] at h
      simp only [Option.some.injEq] at h
      subst h
      exact List.length_eq_zero.mp hb
    · rw [if_neg hb] at h; cases h
  | cons t0 ts ih =>
    intro b c hpos h
    have hpos0 : 0 < t0 := hpos t0 (by simp)
    have hposts : ∀ d ∈ ts, 0 < d := fun d hd => hpos d (List.mem_cons_of_mem _ hd)
    simp only [NDA.bexpand] at h
    by_cases h1 : b.ndim = ts.length + 1
    · rw [if_pos h1] at h
      match b with
      | .scalar x => cases h
      | .dim rows =>
        simp only at h
        by_cases h2 : rows.length = t0
        · rw [if_pos h2] at h
          cases hbl : rows.mapM (NDA.bexpand ts) with
          | none => rw [hbl] at h; cases h
          | some cs =>
            rw [hbl] at h
            simp only [Option.map_some', Option.some.injEq] at h
            subst h
            obtain ⟨hlen, hmem⟩ := NDA.mapM_bexpand_sound ts rows cs hbl
            match cs with
            | [] =>
              exfalso
              simp only [List.length_nil] at hlen
              omega
            | c0 :: cs2 =>
              show (cs2.length + 1) :: c0.shape = t0 :: ts
              obtain ⟨r, hr, hbe⟩ := hmem c0 (by simp)
              rw [ih r c0 hposts hbe]
              have : cs2.length + 1 = t0 := by
                have := hlen
                simp only [List.length_cons] at this
                omega
              rw [this]
        · rw [if_neg h2] at h
          match rows with
          | [] => simp at h
          | [r] =>
            simp only at h
            cases hbe : NDA.bexpand ts r with
            | none => rw [hbe] at h; cases h
            | some c0 =>
              rw [hbe] at h
              simp only [Option.map_some', Option.some.injEq] at h
              subst h
              rw [NDA.shape_dim_replicate t0 hpos0 c0, ih r c0 hposts hbe]
          | r1 :: r2 :: rrest => simp at h
    · rw [if_neg h1] at h
      by_cases h2 : b.ndim ≤ ts.length
      · rw [if_pos h2] at h
        cases hbe : NDA.bexpand ts b with
        | none => rw [hbe] at h; cases h
        | some c0 =>
          rw [hbe] at h
          simp only [Option.map_some', Option.some.injEq] at h
          subst h
          rw [NDA.shape_dim_replicate t0 hpos0 c0, ih b c0 hposts hbe]
      · rw [if_neg h2] at h; cases h

/-- `bexpand` produces a well-formed array (for positive targets). -/
theorem NDA.bexpand_wf : ∀ (t : List Nat) (b c : NDA),
    (∀ d ∈ t, 0 < d) → NDA.bexpand t b = some c → c.wfa = true := by
  intro t
  induction t with
  | nil =>
    intro b c _ h
    simp only [NDA.bexpand] at h
    by_cases hb : b.ndim = 0
    · rw [if_pos hb] at h
      simp only [Option.some.injEq] at h
      subst h
      obtain ⟨x, rfl⟩ := NDA.shape_nil_scalar b (List.length_eq_zero.mp hb)
      rfl
    · rw [if_neg hb] at h; cases h
  | cons t0 ts ih =>
    intro b c hpos h
    have hpos0 : 0 < t0 := hpos t0 (by simp)
    have hposts : ∀ d ∈ ts, 0 < d := fun d hd => hpos d (List.mem_cons_of_mem _ hd)
    simp only [NDA.bexpand] at h
    by_cases h1 : b.ndim = ts.length + 1
    · rw [if_pos h1] at h
      match b with
      | .scalar x => cases h
      | .dim rows =>
        simp only at h
        by_cases h2 : rows.length = t0
        · rw [if_pos h2] at h
          cases hbl : rows.mapM (NDA.bexpand ts) with
          | none => rw [hbl] at h; cases h
          | some cs =>
            rw [hbl] at h
            simp only [Option.map_some', Option.some.injEq] at h
            subst h
            obtain ⟨hlen, hmem⟩ := NDA.mapM_bexpand_sound ts rows cs hbl
            rw [NDA.wfa_dim_iff]
            refine ⟨ts, ?_, ?_⟩
            · intro hnil
              rw [hnil] at hlen
              simp only [List.length_nil] at hlen
              omega
            · intro x hx
              obtain ⟨r, hr, hbe⟩ := hmem x hx
              exact ⟨ih r x hposts hbe, NDA.bexpand_shape ts r x hposts hbe⟩
        · rw [if_neg h2] at h
          match rows with
          | [] => simp at h
          | [r] =>
            simp only at h
            cases hbe : NDA.bexpand ts r with
            | none => rw [hbe] at h; cases h
            | some c0 =>
              rw [hbe] at h
              simp only [Option.map_some', Option.some.injEq] at h
              subst h
              exact NDA.wfa_dim_replicate t0 hpos0 c0 (ih r c0 hposts hbe)
          | r1 :: r2 :: rrest => simp at h
    · rw [if_neg h1] at h
      by_cases h2 : b.ndim ≤ ts.length
      · rw [if_pos h2] at h
        cases hbe : NDA.bexpand ts b with
        | none => rw [hbe] at h; cases h
        | some c0 =>
          rw [hbe] at h
          simp only [Option.map_some', Option.some.injEq] at h
          subst h
          exact NDA.wfa_dim_replicate t0 hpos0 c0 (ih b c0 hposts hbe)
      · rw [if_neg h2] at h; cases h

theorem NDA.mapM_bexpand_self (sh : List Nat) : ∀ rs : List NDA,
    (∀ r ∈ rs, NDA.bexpand sh r = some r) → rs.mapM (NDA.bexpand sh) = some rs := by
  intro rs
  induction rs with
  | nil => intro _; rfl
  | cons a as ih =>
    intro hall
    rw [List.mapM_cons, hall a (by simp),
      ih (fun r hr => hall r (List.mem_cons_of_mem _ hr))]
    rfl

/-- Broadcasting a well-formed array to its own shape is the identity. -/
theorem NDA.bexpand_self : ∀ a : NDA, a.wfa = true → NDA.bexpand a.shape a = some a := by
  intro a
  induction a using NDA.ind with
  | hs x =>
    intro _
    show NDA.bexpand [] (NDA.scalar x) = some (NDA.scalar x)
    simp [NDA.bexpand, NDA.ndim, NDA.shape]
  | hd rows ih =>
    intro hwf
    have hrows := NDA.wfa_dim_rows hwf
    match hr : rows with
    | [] => simp [NDA.wfa] at hwf
    | r :: rs =>
      show NDA.bexpand ((rs.length + 1) :: r.shape) (NDA.dim (r :: rs)) = _
      have hnd : (NDA.dim (r :: rs)).ndim = r.shape.length + 1 := by
        simp [NDA.ndim, NDA.shape]
      have hself : (r :: rs).mapM (NDA.bexpand r.shape) = some (r :: rs) := by
        apply NDA.mapM_bexpand_self
        intro x hx
        have hxr := hrows x (hr ▸ hx)
        have hxsh : x.shape = r.shape := by
          have h1 := hxr.2
          have h2 := (hrows r (hr ▸ List.mem_cons_self r rs)).2
          rw [h1] at h2
          injection h2 with h3 h4
        rw [← hxsh]
        exact ih x hx hxr.1
      simp only [NDA.bexpand]
      rw [if_pos hnd]
      simp only [List.length_cons, if_pos rfl]
      rw [hself]
      rfl

theorem NDA.breduceSame_self : ∀ a : NDA, a.wfa = true → NDA.breduceSame a.shape a = a := by
  intro a
  induction a using NDA.ind with
  | hs x => intro _; rfl
  | hd rows ih =>
    intro hwf
    have hrows := NDA.wfa_dim_rows hwf
    match hr : rows with
    | [] => simp [NDA.wfa] at hwf
    | r :: rs =>
      show NDA.breduceSame ((rs.length + 1) :: r.shape) (NDA.dim (r :: rs)) = _
      have hcond : ¬(rs.length + 1 = 1 ∧ (r :: rs).length ≠ 1) := by
        simp only [List.length_cons, ne_eq, not_and, not_not]
        omega
      have hall : ∀ x ∈ r :: rs, NDA.breduceSame r.shape x = x := by
        intro x hx
        have hxr := hrows x (hr ▸ hx)
        have hxsh : x.shape = r.shape := by
          have h1 := hxr.2
          have h2 := (hrows r (hr ▸ List.mem_cons_self r rs)).2
          rw [h1] at h2
          injection h2 with h3 h4
        rw [← hxsh]
        exact ih x hx hxr.1
      simp only [NDA.breduceSame]
      rw [if_neg hcond, NDA.dim.injEq]
      calc (r :: rs).map (NDA.breduceSame r.shape)
          = (r :: rs).map id := List.map_congr_left hall
        _ = r :: rs := List.map_id (r :: rs)

/-- Broadcast-reducing a well-formed array to its own shape is the identity. -/
theorem NDA.breduce_self (a : NDA) (hwf : a.wfa = true) :
    NDA.breduce a a.shape = a := by
  unfold NDA.breduce
  rw [show a.ndim - a.shape.length = 0 from by simp [NDA.ndim]]
  exact NDA.breduceSame_self a hwf

theorem bcastRev_self : ∀ l : List Nat, bcastRev l l = some l := by
  intro l
  induction l with
  | nil => rfl
  | cons a l ih => simp [bcastRev, ih]

theorem broadcastShapes_self (s : List Nat) : broadcastShapes s s = some s := by
  simp [broadcastShapes, bcastRev_self, List.reverse_reverse]

/-- On equal shapes, a broadcasting binary operation is the plain
elementwise operation. -/
theorem NDA.bop_same_shape (f : Int → Int → Int) (a b : NDA)
    (hwa : a.wfa = true) (hwb : b.wfa = true) (hsh : b.shape = a.shape) :
    NDA.bop f a b = some (NDA.ewSame f a b) := by
  unfold NDA.bop
  rw [hsh, broadcastShapes_self]
  simp only
  rw [NDA.bexpand_self a hwa,
    show NDA.bexpand a.shape b = some b from hsh ▸ NDA.bexpand_self b hwb]

/-- On a seed of the accumulator's exact shape, in-place accumulation is the
plain elementwise sum. -/
theorem NDA.iaddArr_same_shape (x g : NDA) (hg : g.wfa = true)
    (hsh : g.shape = x.shape) :
    NDA.iaddArr x g = some (NDA.ewSame (· + ·) x g) := by
  unfold NDA.iaddArr
  rw [← hsh, NDA.bexpand_self g hg]
  rfl

/-- Successful in-place accumulation adds a delta that depends only on the
seed and the accumulator's shape; any same-shaped well-formed accumulator
accepts the same seed and receives the same delta. -/
theorem NDA.iaddArr_delta (x y g x2 : NDA) (hx : x.wfa = true) (hy : y.wfa = true)
    (hsh : y.shape = x.shape) (h : NDA.iaddArr x g = some x2) :
    ∃ δ, δ.wfa = true ∧ δ.shape = x.shape ∧ x2 = NDA.ewSame (· + ·) x δ ∧
      x2.wfa = true ∧ x2.shape = x.shape ∧
      NDA.iaddArr y g = some (NDA.ewSame (· + ·) y δ) := by
  unfold NDA.iaddArr at h ⊢
  cases hbe : NDA.bexpand x.shape g with
  | none => rw [hbe] at h; cases h
  | some δ =>
    rw [hbe] at h
    simp only [Option.map_some', Option.some.injEq] at h
    have hδw := NDA.bexpand_wf x.shape g δ (NDA.shape_pos x hx) hbe
    have hδs := NDA.bexpand_shape x.shape g δ (NDA.shape_pos x hx) hbe
    refine ⟨δ, hδw, hδs, h.symm, ?_, ?_, ?_⟩
    · rw [← h]; exact NDA.ewSame_wf _ x δ hx hδw hδs
    · rw [← h]; exact NDA.ewSame_shape _ x δ hδs
    · rw [hsh, hbe]; rfl

theorem OptGradEq_self_left : ∀ {a b : Option NDA}, OptGradEq a b → OptGradEq a a
  | none, none, _ => trivial
  | some x, some y, h => ⟨rfl, h.2.1, h.2.1⟩

theorem OptGradEq_trans : ∀ {a b c : Option NDA},
    OptGradEq a b → OptGradEq b c → OptGradEq a c
  | none, none, none, _, _ => trivial
  | some x, some y, some z, h1, h2 => ⟨h1.1.trans h2.1, h1.2.1, h2.2.2⟩

theorem NodeEq_self_left {a b : Node} (h : NodeEq a b) : NodeEq a a :=
  ⟨rfl, rfl, rfl, rfl, OptGradEq_self_left h.2.2.2.2⟩

theorem NodeEq_trans {a b c : Node} (h1 : NodeEq a b) (h2 : NodeEq b c) : NodeEq a c :=
  ⟨h1.1.trans h2.1, h1.2.1.trans h2.2.1, h1.2.2.1.trans h2.2.2.1,
    h1.2.2.2.1.trans h2.2.2.2.1, OptGradEq_trans h1.2.2.2.2 h2.2.2.2.2⟩

theorem GraphEq_get {s t : Store} (h : GraphEq s t) {j : Nat} {a : Node}
    (ha : s[j]? = some a) : ∃ b, t[j]? = some b ∧ NodeEq a b := by
  have hj := (List.getElem?_eq_some.mp ha).1
  have hjt : j < t.length := h.1 ▸ hj
  exact ⟨t[j], List.getElem?_eq_getElem hjt,
    h.2 j a _ ha (List.getElem?_eq_getElem hjt)⟩

theorem GraphEq_self_left {s t : Store} (h : GraphEq s t) : GraphEq s s := by
  refine ⟨rfl, fun j a b ha hb => ?_⟩
  rw [ha] at hb
  injection hb with hb
  subst hb
  obtain ⟨c, -, hac⟩ := GraphEq_get h ha
  exact NodeEq_self_left hac

theorem GraphEq_trans {s t u : Store} (h1 : GraphEq s t) (h2 : GraphEq t u) :
    GraphEq s u := by
  refine ⟨h1.1.trans h2.1, fun j a c ha hc => ?_⟩
  obtain ⟨b, hb, hab⟩ := GraphEq_get h1 ha
  exact NodeEq_trans hab (h2.2 j b c hb hc)

theorem GradStep_refl (a b : Option NDA) : GradStep a a b b := Or.inl ⟨rfl, rfl⟩

theorem GradStep_trans {a b c d e f : Option NDA}
    (h1 : GradStep a b d e) (h2 : GradStep b c e f) : GradStep a c d f := by
  rcases h1 with ⟨rfl, rfl⟩ | ⟨x, y, δ, rfl, rfl, rfl, rfl, hwx, hwy, hwδ, hsδ, hsy⟩
  · exact h2
  · rcases h2 with ⟨hc, hf⟩ | ⟨x2, y2, δ2, hx2, hy2, hc, hf, hwx2, hwy2, hwδ2, hsδ2, hsy2⟩
    · subst hc; subst hf
      exact Or.inr ⟨x, y, δ, rfl, rfl, rfl, rfl, hwx, hwy, hwδ, hsδ, hsy⟩
    · injection hx2 with hx2
      injection hy2 with hy2
      subst hx2; subst hy2; subst hc; subst hf
      have hsδ2x : δ2.shape = x.shape := by
        rw [hsδ2, NDA.ewSame_shape _ x δ hsδ]
      refine Or.inr ⟨x, y, NDA.ewSame (· + ·) δ δ2, rfl, rfl, ?_, ?_, hwx, hwy, ?_, ?_, hsy⟩
      · rw [NDA.addSame_assoc x δ δ2 hwx hwδ hwδ2 hsδ hsδ2x]
      · rw [NDA.addSame_assoc y δ δ2 hwy hwδ hwδ2 (hsδ.trans hsy.symm) (hsδ2x.trans hsy.symm)]
      · exact NDA.ewSame_wf _ δ δ2 hwδ hwδ2 (hsδ2x.trans hsδ.symm)
      · rw [NDA.ewSame_shape _ δ δ2 (hsδ2x.trans hsδ.symm), hsδ]

theorem StepAll_refl (s t : Store) : StepAll s s t t :=
  fun j => GradStep_refl (gradAt s j) (gradAt t j)

theorem StepAll_trans {s s1 s2 t t1 t2 : Store}
    (h1 : StepAll s s1 t t1) (h2 : StepAll s1 s2 t1 t2) : StepAll s s2 t t2 :=
  fun j => GradStep_trans (h1 j) (h2 j)

theorem gradAt_eq {s : Store} {j : Nat} {n : Node} (h : s[j]? = some n) :
    gradAt s j = n.grad := by
  unfold gradAt
  rw [h]
  rfl

theorem gradAt_set_ne {s : Store} {i j : Nat} (h : i ≠ j) (a : Node) :
    gradAt (s.set i a) j = gradAt s j := by
  unfold gradAt
  rw [List.getElem?_set_ne h]

theorem gradAt_set_eq {s : Store} {i : Nat} (h : i < s.length) (a : Node) :
    gradAt (s.set i a) i = a.grad := by
  unfold gradAt
  rw [List.getElem?_set_self h]
  rfl

theorem GraphEq_set_self {s t : Store} (h : GraphEq s t) {i : Nat} {n a : Node}
    (hsi : s[i]? = some n) (hna : NodeEq n a) : GraphEq s (s.set i a) := by
  refine ⟨(List.length_set s i a).symm, fun j x y hx hy => ?_⟩
  by_cases hij : i = j
  · subst hij
    rw [hsi] at hx
    injection hx with hx
    subst hx
    rw [List.getElem?_set_self (List.getElem?_eq_some.mp hsi).1] at hy
    injection hy with hy
    subst hy
    exact hna
  · rw [List.getElem?_set_ne hij] at hy
    rw [hx] at hy
    injection hy with hy
    subst hy
    obtain ⟨c, -, hac⟩ := GraphEq_get h hx
    exact NodeEq_self_left hac

theorem GraphEq_set_both {s t : Store} (h : GraphEq s t) {i : Nat} {a b : Node}
    (hab : NodeEq a b) : GraphEq (s.set i a) (t.set i b) := by
  refine ⟨by rw [List.length_set, List.length_set]; exact h.1, fun j x y hx hy => ?_⟩
  by_cases hij : i = j
  · subst hij
    by_cases hlt : i < s.length
    · rw [List.getElem?_set_self hlt] at hx
      injection hx with hx
      subst hx
      rw [List.getElem?_set_self (h.1 ▸ hlt)] at hy
      injection hy with hy
      subst hy
      exact hab
    · exfalso
      have := (List.getElem?_eq_some.mp hx).1
      rw [List.length_set] at this
      exact hlt this
  · rw [List.getElem?_set_ne hij] at hx hy
    exact h.2 j x y hx hy

/-- Decompose a successful `Except` bind. -/
theorem exceptBind_ok {α β : Type} {x : Except BackErr α} {f : α → Except BackErr β}
    {b : β} (h : (x >>= f) = .ok b) : ∃ a, x = .ok a ∧ f a = .ok b := by
  cases x with
  | error e => exact absurd h (by simp [Bind.bind, Except.bind])
  | ok a => exact ⟨a, rfl, by simpa [Bind.bind, Except.bind] using h⟩

/-- The seed-defaulting step only inspects the (stale) `shape` attribute. -/
theorem seedFor_congr {n m : Node} (hsh : m.shape = n.shape) (gArg : Option NDA) :
    seedFor m gArg = seedFor n gArg := by
  unfold seedFor
  cases gArg with
  | some g => rfl
  | none => rw [hsh]

/-- Successful accumulation in one node succeeds in any `OptGradEq`-related
node, adding the same delta. -/
theorem accumulate_parallel {n m : Node} (hog : OptGradEq n.grad m.grad) {g gr2 : NDA}
    (h : accumulate n g = .ok gr2) :
    ∃ gr grm δ, n.grad = some gr ∧ m.grad = some grm ∧
      δ.wfa = true ∧ δ.shape = gr.shape ∧ grm.shape = gr.shape ∧
      gr.wfa = true ∧ grm.wfa = true ∧
      gr2 = NDA.ewSame (· + ·) gr δ ∧ gr2.wfa = true ∧ gr2.shape = gr.shape ∧
      accumulate m g = .ok (NDA.ewSame (· + ·) grm δ) := by
  unfold accumulate at h
  cases hgr : n.grad with
  | none => rw [hgr] at h; cases h
  | some gr =>
    rw [hgr] at h
    simp only at h
    cases hgrm : m.grad with
    | none => rw [hgr, hgrm] at hog; exact absurd hog (by simp [OptGradEq])
    | some grm =>
      rw [hgr, hgrm] at hog
      obtain ⟨hshape, hwgr, hwgrm⟩ := hog
      cases hia : NDA.iaddArr gr g with
      | none => rw [hia] at h; cases h
      | some gr2' =>
        rw [hia] at h
        injection h with h
        subst h
        obtain ⟨δ, hwδ, hsδ, heq, hw2, hs2, hiam⟩ :=
          NDA.iaddArr_delta gr grm g gr2' hwgr hwgrm hshape.symm hia
        have haccm : accumulate m g = .ok (NDA.ewSame (· + ·) grm δ) := by
          unfold accumulate
          rw [hgrm]
          simp only
          rw [hiam]
        exact ⟨gr, grm, δ, rfl, rfl, hwδ, hsδ, hshape.symm, hwgr, hwgrm,
          heq, hw2, hs2, haccm⟩

/-- Unfolding of `backwardAux` at positive fuel. -/
theorem backwardAux_succ (fuel : Nat) (s : Store) (i : Nat) (gArg : Option NDA) :
    backwardAux (fuel + 1) s i gArg =
      match s[i]? with
      | none => .error .invalidRef
      | some n =>
        if n.requiresGrad = false then .error .ungradableTensor
        else
          match seedFor n gArg with
          | .error e => .error e
          | .ok g =>
            match accumulate n g with
            | .error e => .error e
            | .ok gr2 =>
              n.dependsOn.foldlM
                (fun st d => backwardAux fuel st d.tensorId (some (d.gradFn g)))
                (s.set i { n with grad := some gr2 }) := rfl

/-- Parallel-runs property for the dependency fold, given the property at the
current fuel level. -/
theorem backward_fold_parallel (fuel : Nat)
    (ihP : ∀ (s : Store) (i : Nat) (gArg : Option NDA) (s2 t : Store),
      backwardAux fuel s i gArg = .ok s2 → GraphEq s t →
      ∃ t2, backwardAux fuel t i gArg = .ok t2 ∧ GraphEq s s2 ∧ GraphEq s2 t2 ∧
        StepAll s s2 t t2) :
    ∀ (ds : List Dep) (g : NDA) (s t s2 : Store),
      ds.foldlM (fun st d => backwardAux fuel st d.tensorId (some (d.gradFn g))) s = .ok s2 →
      GraphEq s t →
      ∃ t2, ds.foldlM (fun st d => backwardAux fuel st d.tensorId (some (d.gradFn g))) t
          = .ok t2 ∧
        GraphEq s s2 ∧ GraphEq s2 t2 ∧ StepAll s s2 t t2 := by
  intro ds
  induction ds with
  | nil =>
    intro g s t s2 h hge
    simp only [List.foldlM_nil] at h
    have hs : s = s2 := by simpa [pure, Except.pure] using h
    subst hs
    exact ⟨t, by simp [List.foldlM_nil, pure, Except.pure], GraphEq_self_left hge, hge,
      StepAll_refl s t⟩
  | cons d ds ihl =>
    intro g s t s2 h hge
    rw [List.foldlM_cons] at h
    obtain ⟨s1, h1, h2⟩ := exceptBind_ok h
    obtain ⟨t1, ht1, hss1, hs1t1, hstep1⟩ := ihP s d.tensorId (some (d.gradFn g)) s1 t h1 hge
    obtain ⟨t2, ht2, hs1s2, hs2t2, hstep2⟩ := ihl g s1 t1 s2 h2 hs1t1
    refine ⟨t2, ?_, GraphEq_trans hss1 hs1s2, hs2t2, StepAll_trans hstep1 hstep2⟩
    rw [List.foldlM_cons, ht1]
    simpa [Bind.bind, Except.bind] using ht2

/-- Parallel runs: a successful `backwardAux` run from `s` succeeds from any
graph-equal store `t`, adds the same gradient deltas, and preserves graph
equality. -/
theorem backward_parallel :
    ∀ (fuel : Nat) (s : Store) (i : Nat) (gArg : Option NDA) (s2 t : Store),
      backwardAux fuel s i gArg = .ok s2 → GraphEq s t →
      ∃ t2, backwardAux fuel t i gArg = .ok t2 ∧ GraphEq s s2 ∧ GraphEq s2 t2 ∧
        StepAll s s2 t t2 := by
  intro fuel
  induction fuel with
  | zero =>
    intro s i gArg s2 t h _
    exact absurd h (by simp [backwardAux])
  | succ fuel ih =>
    intro s i gArg s2 t h hge
    rw [backwardAux_succ] at h
    cases hsi : s[i]? with
    | none => rw [hsi] at h; cases h
    | some n =>
      rw [hsi] at h
      simp only at h
      obtain ⟨m, hti, hnm⟩ := GraphEq_get hge hsi
      obtain ⟨hdata, hrg, hshp, hdeps, hog⟩ := hnm
      by_cases hrgv : n.requiresGrad = false
      · rw [if_pos hrgv] at h; cases h
      · rw [if_neg hrgv] at h
        have hrgt : n.requiresGrad = true := by
          cases hb : n.requiresGrad
          · exact absurd hb hrgv
          · rfl
        cases hseed : seedFor n gArg with
        | error e => rw [hseed] at h; cases h
        | ok g =>
          rw [hseed] at h
          simp only at h
          cases hacc : accumulate n g with
          | error e => rw [hacc] at h; cases h
          | ok gr2 =>
            rw [hacc] at h
            simp only at h
            obtain ⟨gr, grm, δ, hgr, hgrm, hwδ, hsδ, hsgrm, hwgr, hwgrm, hgr2, hwgr2,
              hsgr2, haccm⟩ := accumulate_parallel hog hacc
            have hδgrm : δ.shape = grm.shape := hsδ.trans hsgrm.symm
            have hlts : i < s.length := (List.getElem?_eq_some.mp hsi).1
            have hltt : i < t.length := hge.1 ▸ hlts
            have hnn2 : NodeEq n { n with grad := some gr2 } := by
              refine ⟨rfl, rfl, rfl, rfl, ?_⟩
              rw [hgr]
              exact ⟨hsgr2.symm, hwgr, hwgr2⟩
            have hnm2 : NodeEq { n with grad := some gr2 }
                { m with grad := some (NDA.ewSame (· + ·) grm δ) } := by
              refine ⟨hdata, hrg, hshp, hdeps, ?_⟩
              refine ⟨?_, hwgr2, NDA.ewSame_wf _ grm δ hwgrm hwδ hδgrm⟩
              rw [hsgr2, NDA.ewSame_shape _ grm δ hδgrm, hsgrm]
            have hset1 : GraphEq s (s.set i { n with grad := some gr2 }) :=
              GraphEq_set_self hge hsi hnn2
            have hsetb : GraphEq (s.set i { n with grad := some gr2 })
                (t.set i { m with grad := some (NDA.ewSame (· + ·) grm δ) }) :=
              GraphEq_set_both hge hnm2
            have hstep0 : StepAll s (s.set i { n with grad := some gr2 })
                t (t.set i { m with grad := some (NDA.ewSame (· + ·) grm δ) }) := by
              intro j
              by_cases hij : i = j
              · subst hij
                rw [gradAt_set_eq hlts, gradAt_set_eq hltt, gradAt_eq hsi, gradAt_eq hti,
                  hgr, hgrm]
                exact Or.inr ⟨gr, grm, δ, rfl, rfl, by rw [hgr2], rfl,
                  hwgr, hwgrm, hwδ, hsδ, hsgrm⟩
              · rw [gradAt_set_ne hij, gradAt_set_ne hij]
                exact GradStep_refl _ _
            obtain ⟨t2, ht2, hs1s2, hs2t2, hstep2⟩ :=
              backward_fold_parallel fuel ih n.dependsOn g
                (s.set i { n with grad := some gr2 })
                (t.set i { m with grad := some (NDA.ewSame (· + ·) grm δ) }) s2 h hsetb
            refine ⟨t2, ?_, GraphEq_trans hset1 hs1s2, hs2t2, StepAll_trans hstep0 hstep2⟩
            rw [backwardAux_succ, hti]
            simp only
            rw [if_neg (by rw [← hrg, hrgt]; simp)]
            rw [seedFor_congr hshp.symm gArg, hseed]
            simp only
            rw [haccm]
            simp only
            rw [hdeps] at ht2
            exact ht2


/-- `Except.ok` bound into a continuation reduces. -/
theorem exceptOk_bind {α β : Type} (a : α) (f : α → Except BackErr β) :
    (Except.ok a >>= f) = f a := rfl

theorem accumulate_of_grad (n : Node) (g gr gr2 : NDA) (hgr : n.grad = some gr)
    (hia : NDA.iaddArr gr g = some gr2) : accumulate n g = .ok gr2 := by
  unfold accumulate
  rw [hgr]
  simp only
  rw [hia]

/-- Accumulating a shape-matching seed into a zero accumulator yields the seed. -/
theorem NDA.iaddArr_zero (a g : NDA) (hwa : a.wfa = true) (hwg : g.wfa = true)
    (hsh : g.shape = a.shape) : NDA.iaddArr a.zerosLike g = some g := by
  rw [NDA.iaddArr_same_shape _ g hwg (by rw [hsh, NDA.zerosLike_shape]),
    NDA.addSame_zero_left a g hwa hwg hsh]

/-- `backward` on a leaf (empty dependency list) just accumulates the seed. -/
theorem backward_leaf (fuel : Nat) (s : Store) (i : Nat) (n : Node) (g gr2 : NDA)
    (hsi : s[i]? = some n) (hrg : n.requiresGrad = true) (hdeps : n.dependsOn = [])
    (hacc : accumulate n g = .ok gr2) :
    backwardAux (fuel + 1) s i (some g) = .ok (s.set i { n with grad := some gr2 }) := by
  rw [backwardAux_succ, hsi]
  simp only
  rw [if_neg (by rw [hrg]; simp)]
  simp only [seedFor]
  rw [hacc]
  simp only [hdeps, List.foldlM_nil]
  rfl

/-! ## The claims -/

/-- C2: `backward` invoked on a tensor whose `requires_grad` is false fails
with the `UngradableTensor` condition (the `assert` at the top of
`Tensor.backward`), with or without a seed.  The assertion fires before the
accumulation step, so the call produces no post-state: exceptions abort the
walk before any gradient is touched. -/
theorem c2_backward_requires_grad (s : Store) (i : Nat) (n : Node) (gArg : Option NDA)
    (hsi : s[i]? = some n) (hrg : n.requiresGrad = false) :
    Tensor.backward s i gArg = .error .ungradableTensor := by
  unfold Tensor.backward
  rw [backwardAux_succ, hsi]
  simp only
  rw [if_pos hrg]

theorem c2_backward_requires_grad_witness :
    Tensor.backward [Tensor.init (NDA.scalar 3) false []] 0 none
      = .error .ungradableTensor ∧
    Tensor.backward [Tensor.init (NDA.scalar 3) false []] 0 (some (NDA.scalar 1))
      = .error .ungradableTensor :=
  ⟨c2_backward_requires_grad _ 0 (Tensor.init (NDA.scalar 3) false []) none rfl rfl,
   c2_backward_requires_grad _ 0 (Tensor.init (NDA.scalar 3) false [])
     (some (NDA.scalar 1)) rfl rfl⟩

/-- C3: with the seed omitted, a scalar-shaped root (empty `shape` attribute)
proceeds exactly as if the default seed `Tensor(1)` had been supplied, and a
root of non-empty shape fails with the `MissingSeedGradient` condition. -/
theorem c3_default_seed (s : Store) (i : Nat) (n : Node)
    (hsi : s[i]? = some n) (hrg : n.requiresGrad = true) :
    (n.shape = [] →
      Tensor.backward s i none = Tensor.backward s i (some (NDA.scalar 1))) ∧
    (n.shape ≠ [] → Tensor.backward s i none = .error .missingSeedGradient) := by
  constructor
  · intro hsh
    unfold Tensor.backward
    rw [backwardAux_succ, backwardAux_succ, hsi]
    simp only
    rw [if_neg (by rw [hrg]; simp)]
    unfold seedFor
    rw [if_pos hsh]
    rw [if_neg (by rw [hrg]; simp)]
  · intro hsh
    unfold Tensor.backward
    rw [backwardAux_succ, hsi]
    simp only
    rw [if_neg (by rw [hrg]; simp)]
    unfold seedFor
    rw [if_neg hsh]

theorem c3_default_seed_witness :
    (Tensor.backward [Tensor.init (NDA.scalar 2) true []] 0 none
      = Tensor.backward [Tensor.init (NDA.scalar 2) true []] 0 (some (NDA.scalar 1))) ∧
    (Tensor.backward
        [Tensor.init (NDA.dim [NDA.scalar 1, NDA.scalar 2, NDA.scalar 3]) true []] 0 none
      = .error .missingSeedGradient) :=
  ⟨(c3_default_seed _ 0 (Tensor.init (NDA.scalar 2) true []) rfl rfl).1 rfl,
   (c3_default_seed _ 0
      (Tensor.init (NDA.dim [NDA.scalar 1, NDA.scalar 2, NDA.scalar 3]) true [])
      rfl rfl).2 (by simp [Tensor.init, Node.zeroGrad, NDA.shape])⟩

/-- C5: the public `data` setter replaces the payload and, as a side effect,
discards any previously accumulated gradient, while leaving `requires_grad`
and `depends_on` (and the stale `shape` attribute) unchanged. -/
theorem c5_set_data_frame (t : Node) (d : NDA) :
    (t.setData d).data = d ∧ (t.setData d).grad = none ∧
    (t.setData d).requiresGrad = t.requiresGrad ∧
    (t.setData d).dependsOn = t.dependsOn ∧
    (t.setData d).shape = t.shape :=
  ⟨rfl, rfl, rfl, rfl, rfl⟩

/-- C6: each compound in-place update computes the broadcast elementwise
combination of the old payload with the coerced other operand's value and
routes it through the `data` setter: the result (when the numpy operation
succeeds) is exactly the original record with the new `data` and
`grad := none` — in particular `depends_on` is untouched, so an in-place op
never grows the dependency graph. -/
theorem c6_inplace_ops (t : Node) (o : Tensorable) :
    t.iaddT o = (NDA.bop (· + ·) t.data (ensureTensor o).data).map
      (fun d => { t with data := d, grad := none }) ∧
    t.isubT o = (NDA.bop (· - ·) t.data (ensureTensor o).data).map
      (fun d => { t with data := d, grad := none }) ∧
    t.imulT o = (NDA.bop (· * ·) t.data (ensureTensor o).data).map
      (fun d => { t with data := d, grad := none }) :=
  ⟨rfl, rfl, rfl⟩

/-- C7: constructing a tensor with `requires_grad = true` eagerly allocates
(as `__init__` calls `zero_grad`) a zero gradient of exactly the shape of the
data; with `requires_grad = false` the gradient is absent after construction. -/
theorem c7_init_grad (d : NDA) (deps : List Dep) :
    (Tensor.init d true deps).grad = some d.zerosLike ∧
    d.zerosLike.shape = d.shape ∧
    (Tensor.init d false deps).grad = none :=
  ⟨rfl, NDA.zerosLike_shape d, rfl⟩

/-- C10: with `requires_grad` true but the accumulator absent (as left behind
by `set_data` or a compound in-place update), `backward` fails at the
accumulation step (`self.grad.data` on `None`) even when the seed has exactly
the data's shape; once the accumulator is rematerialized by `zero_grad`, the
same call on a leaf succeeds and accumulates the seed. -/
theorem c10_grad_absent (s : Store) (i : Nat) (n : Node)
    (hsi : s[i]? = some n) (hrg : n.requiresGrad = true) (hgr : n.grad = none) :
    (∀ g : NDA, Tensor.backward s i (some g) = .error .gradAbsent) ∧
    (n.dependsOn = [] → n.data.wfa = true →
      ∀ g : NDA, g.wfa = true → g.shape = n.data.shape →
        Tensor.backward (s.set i n.zeroGrad) i (some g)
          = .ok ((s.set i n.zeroGrad).set i { n.zeroGrad with grad := some g })) := by
  constructor
  · intro g
    unfold Tensor.backward
    rw [backwardAux_succ, hsi]
    simp only
    rw [if_neg (by rw [hrg]; simp)]
    simp only [seedFor]
    unfold accumulate
    rw [hgr]
  · intro hdeps hwf g hwg hshg
    have hlt : i < s.length := (List.getElem?_eq_some.mp hsi).1
    have hsi2 : (s.set i n.zeroGrad)[i]? = some n.zeroGrad :=
      List.getElem?_set_self hlt
    unfold Tensor.backward
    exact backward_leaf i _ i n.zeroGrad g g hsi2 hrg hdeps
      (accumulate_of_grad _ g n.data.zerosLike g rfl
        (NDA.iaddArr_zero n.data g hwf hwg hshg))

theorem c10_grad_absent_witness :
    (∀ g : NDA,
      Tensor.backward [(Tensor.init (NDA.scalar 4) true []).setData (NDA.scalar 7)] 0
        (some g) = .error .gradAbsent) ∧
    ([(Tensor.init (NDA.scalar 4) true []).setData (NDA.scalar 7)].set 0
        ((Tensor.init (NDA.scalar 4) true []).setData (NDA.scalar 7)).zeroGrad
      = [((Tensor.init (NDA.scalar 4) true []).setData (NDA.scalar 7)).zeroGrad]) ∧
    Tensor.backward
        [((Tensor.init (NDA.scalar 4) true []).setData (NDA.scalar 7)).zeroGrad] 0
        (some (NDA.scalar 5))
      = .ok [{ ((Tensor.init (NDA.scalar 4) true []).setData (NDA.scalar 7)).zeroGrad
               with grad := some (NDA.scalar 5) }] := by
  refine ⟨(c10_grad_absent _ 0 _ rfl rfl rfl).1, rfl, ?_⟩
  have h := (c10_grad_absent
      [(Tensor.init (NDA.scalar 4) true []).setData (NDA.scalar 7)] 0
      ((Tensor.init (NDA.scalar 4) true []).setData (NDA.scalar 7))
      rfl rfl rfl).2 rfl rfl (NDA.scalar 5) rfl rfl
  exact h

/-- C9 (the latent defect flagged by the spec): leaf tensors built without an
explicit `depends_on` argument all alias the single default list object
created when `__init__` was defined.  Both tensors initially read an empty
dependency list, but appending a dependency through the first tensor makes
the second tensor's `depends_on` non-empty as well: the two lists are NOT
independent, refuting the claim's independence part on the code as written. -/
theorem c9_shared_default_depends_on :
    dependsOnOf (mkTensorDefaultDeps initialHeap (NDA.scalar 1)).1
      (mkTensorDefaultDeps initialHeap (NDA.scalar 1)).2 = [] ∧
    dependsOnOf
      (mkTensorDefaultDeps (mkTensorDefaultDeps initialHeap (NDA.scalar 1)).1
        (NDA.scalar 2)).1
      (mkTensorDefaultDeps (mkTensorDefaultDeps initialHeap (NDA.scalar 1)).1
        (NDA.scalar 2)).2 = [] ∧
    dependsOnOf
      (appendDep
        (mkTensorDefaultDeps (mkTensorDefaultDeps initialHeap (NDA.scalar 1)).1
          (NDA.scalar 2)).1
        (mkTensorDefaultDeps initialHeap (NDA.scalar 1)).2 7)
      (mkTensorDefaultDeps (mkTensorDefaultDeps initialHeap (NDA.scalar 1)).1
        (NDA.scalar 2)).2 = [7] :=
  ⟨rfl, rfl, rfl⟩



/-- C1: on a freshly built graph — every tracked node's gradient still the
zero array allocated at construction — running `backward` on a scalar-shaped
root with seed 1, twice, leaves every node's gradient at exactly twice its
value after the single run: `root.grad += grad` accumulates element-wise in
place and nothing zeroes gradients between calls.  And `zero_grad()` resets a
tensor's gradient to an all-zeros array of its data's shape. -/
theorem c1_backward_accumulates (s0 : Store) (i : Nat) (root : Node) (s1 : Store)
    (hroot : s0[i]? = some root) (hrg : root.requiresGrad = true)
    (hscalar : root.shape = [])
    (hwfd : ∀ (j : Nat) (n : Node), s0[j]? = some n → n.data.wfa = true)
    (hfresh : ∀ (j : Nat) (n : Node), s0[j]? = some n →
      n.grad = if n.requiresGrad then some n.data.zerosLike else none)
    (h1 : Tensor.backward s0 i (some (NDA.scalar 1)) = .ok s1) :
    (∃ s2, Tensor.backward s1 i (some (NDA.scalar 1)) = .ok s2 ∧
      ∀ j : Nat, gradAt s2 j = (gradAt s1 j).map NDA.double) ∧
    (∀ t : Node, t.zeroGrad.grad = some t.data.zerosLike ∧
      t.data.zerosLike.shape = t.data.shape) := by
  constructor
  · have hself : GraphEq s0 s0 := by
      refine ⟨rfl, fun j a b ha hb => ?_⟩
      rw [ha] at hb
      injection hb with hb
      subst hb
      refine ⟨rfl, rfl, rfl, rfl, ?_⟩
      have hg := hfresh j a ha
      cases hrga : a.requiresGrad
      · rw [hrga] at hg
        simp at hg
        rw [hg]
        trivial
      · rw [hrga] at hg
        simp at hg
        rw [hg]
        exact ⟨rfl, NDA.wfa_zerosLike _ (hwfd j a ha), NDA.wfa_zerosLike _ (hwfd j a ha)⟩
    obtain ⟨t1, ht1, hs0s1, -, -⟩ :=
      backward_parallel (i + 1) s0 i (some (NDA.scalar 1)) s1 s0 h1 hself
    obtain ⟨s2, hs2, -, -, hsteps⟩ :=
      backward_parallel (i + 1) s0 i (some (NDA.scalar 1)) s1 s1 h1 hs0s1
    refine ⟨s2, hs2, fun j => ?_⟩
    rcases hsteps j with ⟨heq1, heq2⟩ |
      ⟨x, y, δ, hx, hy, hx2, hy2, hwx, hwy, hwδ, hsδ, hsy⟩
    · rw [heq2, heq1]
      cases hj : s0[j]? with
      | none =>
        unfold gradAt
        rw [hj]
        rfl
      | some a =>
        rw [gradAt_eq hj]
        have hg := hfresh j a hj
        cases hrga : a.requiresGrad
        · rw [hrga] at hg
          simp at hg
          rw [hg]
          rfl
        · rw [hrga] at hg
          simp at hg
          rw [hg, Option.map_some', NDA.double_zerosLike]
    · cases hj : s0[j]? with
      | none =>
        exfalso
        unfold gradAt at hx
        rw [hj] at hx
        cases hx
      | some a =>
        rw [gradAt_eq hj] at hx
        have hg := hfresh j a hj
        have hrga : a.requiresGrad = true := by
          cases hrga2 : a.requiresGrad
          · rw [hrga2] at hg
            simp at hg
            rw [hg] at hx
            cases hx
          · rfl
        rw [hrga] at hg
        simp at hg
        rw [hg] at hx
        injection hx with hx
        have hyx : y = NDA.ewSame (· + ·) x δ := by
          rw [hy] at hx2
          injection hx2
        have hδsh : δ.shape = a.data.shape := by
          rw [hsδ, ← hx, NDA.zerosLike_shape]
        have hxδ : NDA.ewSame (· + ·) x δ = δ := by
          rw [← hx]
          exact NDA.addSame_zero_left a.data δ (hwfd j a hj) hwδ hδsh
        rw [hy2, hx2, hyx, hxδ, Option.map_some', NDA.addSame_self]
  · intro t
    exact ⟨rfl, NDA.zerosLike_shape t.data⟩

theorem c1_backward_accumulates_witness :
    (∃ s2,
      Tensor.backward
          [{ Tensor.init (NDA.scalar 5) true [] with grad := some (NDA.scalar 1) },
           { Tensor.init (NDA.scalar 7) true [⟨0, fun g => g⟩] with
             grad := some (NDA.scalar 1) }] 1 (some (NDA.scalar 1)) = .ok s2 ∧
      ∀ j : Nat,
        gradAt s2 j =
          (gradAt
            [{ Tensor.init (NDA.scalar 5) true [] with grad := some (NDA.scalar 1) },
             { Tensor.init (NDA.scalar 7) true [⟨0, fun g => g⟩] with
               grad := some (NDA.scalar 1) }] j).map NDA.double) ∧
    (∀ t : Node, t.zeroGrad.grad = some t.data.zerosLike ∧
      t.data.zerosLike.shape = t.data.shape) := by
  refine c1_backward_accumulates
    [Tensor.init (NDA.scalar 5) true [], Tensor.init (NDA.scalar 7) true [⟨0, fun g => g⟩]]
    1 (Tensor.init (NDA.scalar 7) true [⟨0, fun g => g⟩]) _ rfl rfl rfl ?_ ?_ rfl
  · intro j n h
    match j with
    | 0 => injection h with h; subst h; rfl
    | 1 => injection h with h; subst h; rfl
    | j + 2 => cases h
  · intro j n h
    match j with
    | 0 => injection h with h; subst h; rfl
    | 1 => injection h with h; subst h; rfl
    | j + 2 => cases h



/-- C8: whenever a gradient is present it has exactly the shape of `data`;
this invariant holds after construction, is preserved by `zero_grad`, by the
`data` setter and by every compound in-place update (both of which clear the
gradient), and — at the level of a whole store of well-formed gradients — by
every `backward` call that completes without error. -/
theorem c8_grad_shape_invariant :
    (∀ (d : NDA) (rg : Bool) (deps : List Dep), gradShapeInv (Tensor.init d rg deps)) ∧
    (∀ t : Node, gradShapeInv t.zeroGrad) ∧
    (∀ (t : Node) (d : NDA), gradShapeInv (t.setData d)) ∧
    (∀ (t : Node) (o : Tensorable) (r : Node),
      t.iaddT o = some r ∨ t.isubT o = some r ∨ t.imulT o = some r →
      gradShapeInv r) ∧
    (∀ (s : Store) (i : Nat) (gArg : Option NDA) (s2 : Store),
      StoreInv s → Tensor.backward s i gArg = .ok s2 → StoreInv s2) := by
  refine ⟨?_, ?_, ?_, ?_, ?_⟩
  · intro d rg deps g hg
    cases rg with
    | false => cases hg
    | true =>
      injection hg with hg
      subst hg
      exact NDA.zerosLike_shape d
  · intro t g hg
    injection hg with hg
    subst hg
    exact NDA.zerosLike_shape t.data
  · intro t d g hg
    cases hg
  · intro t o r hor g hg
    have hmap : ∀ x : Option NDA, x.map t.setData = some r → r.grad = none := by
      intro x hx
      cases x with
      | none => cases hx
      | some d =>
        simp only [Option.map_some', Option.some.injEq] at hx
        subst hx
        rfl
    have hnone : r.grad = none := by
      rcases hor with h | h | h
      · exact hmap _ h
      · exact hmap _ h
      · exact hmap _ h
    rw [hnone] at hg
    cases hg
  · intro s i gArg s2 hinv hrun
    have hself : GraphEq s s := by
      refine ⟨rfl, fun j a b ha hb => ?_⟩
      rw [ha] at hb
      injection hb with hb
      subst hb
      refine ⟨rfl, rfl, rfl, rfl, ?_⟩
      cases hga : a.grad with
      | none => trivial
      | some g => exact ⟨rfl, (hinv j a ha g hga).2, (hinv j a ha g hga).2⟩
    obtain ⟨t2, -, hss2, -, -⟩ := backward_parallel (i + 1) s i gArg s2 s hrun hself
    intro j n2 hn2 g hg
    have hj2 : j < s2.length := (List.getElem?_eq_some.mp hn2).1
    have hj : j < s.length := by rw [hss2.1]; exact hj2
    have hn : s[j]? = some s[j] := List.getElem?_eq_getElem hj
    have hne := hss2.2 j s[j] n2 hn hn2
    obtain ⟨hdata, -, -, -, hog⟩ := hne
    cases hga : (s[j]).grad with
    | none =>
      rw [hga, hg] at hog
      exact absurd hog (by simp [OptGradEq])
    | some g0 =>
      rw [hga, hg] at hog
      have h0 := hinv j s[j] hn g0 hga
      exact ⟨by rw [← hog.1, h0.1, hdata], hog.2.2⟩

theorem c8_grad_shape_invariant_witness :
    gradShapeInv (Tensor.init (NDA.dim [NDA.scalar 1, NDA.scalar 2]) true []) ∧
    gradShapeInv (Tensor.init (NDA.scalar 3) false []).zeroGrad ∧
    gradShapeInv ((Tensor.init (NDA.scalar 3) true []).setData (NDA.scalar 9)) ∧
    gradShapeInv ({ Tensor.init (NDA.scalar 1) true [] with
      data := NDA.scalar 3, grad := none }) ∧
    StoreInv [{ Tensor.init (NDA.scalar 5) true [] with grad := some (NDA.scalar 6) }] := by
  have h := c8_grad_shape_invariant
  have hinv0 : StoreInv [Tensor.init (NDA.scalar 5) true []] := by
    intro j n hn g hg
    match j with
    | 0 =>
      injection hn with hn
      subst hn
      injection hg with hg
      subst hg
      exact ⟨rfl, rfl⟩
    | j + 1 => cases hn
  refine ⟨h.1 _ true [], h.2.1 _, h.2.2.1 _ _, ?_, ?_⟩
  · exact h.2.2.2.1 (Tensor.init (NDA.scalar 1) true []) (Tensorable.scalar 2)
      _ (Or.inl rfl)
  · exact h.2.2.2.2 [Tensor.init (NDA.scalar 5) true []] 0 (some (NDA.scalar 6)) _
      hinv0 rfl



/-- One step of the backward walk: after a successful accumulation at a
tracked node, `backward` folds the recursive calls over the dependency list,
handing each `(input, grad_fn)` the gradient `grad_fn(grad.data)`. -/
theorem backward_step (fuel : Nat) (s : Store) (i : Nat) (n : Node) (g gr2 : NDA)
    (hsi : s[i]? = some n) (hrg : n.requiresGrad = true)
    (hacc : accumulate n g = .ok gr2) :
    backwardAux (fuel + 1) s i (some g) =
      n.dependsOn.foldlM
        (fun st d => backwardAux fuel st d.tensorId (some (d.gradFn g)))
        (s.set i { n with grad := some gr2 }) := by
  rw [backwardAux_succ, hsi]
  simp only
  rw [if_neg (by rw [hrg]; simp)]
  simp only [seedFor]
  rw [hacc]

/-- C4: `backward` propagates depth-first per dependency — at every visited
tracked node the walk, after accumulating the seed `g`, recurses into each
dependency `(input, grad_fn)` with gradient `grad_fn(g)` (first conjunct, the
defining step of the walk); and concretely, for two leaf tensors of equal
shape with `requires_grad = true`, after `c = a + b` (the spec-modelled
`_add`) and `c.backward(seed)` with a matching seed, both `a.grad` and
`b.grad` equal the seed (second conjunct). -/
theorem c4_backward_depth_first :
    (∀ (fuel : Nat) (s : Store) (i : Nat) (n : Node) (g gr2 : NDA),
      s[i]? = some n → n.requiresGrad = true → accumulate n g = .ok gr2 →
      backwardAux (fuel + 1) s i (some g) =
        n.dependsOn.foldlM
          (fun st d => backwardAux fuel st d.tensorId (some (d.gradFn g)))
          (s.set i { n with grad := some gr2 })) ∧
    (∀ da db seed : NDA, da.wfa = true → db.wfa = true → seed.wfa = true →
      db.shape = da.shape → seed.shape = da.shape →
      ∃ (s2 : Store) (ic : Nat) (s3 : Store),
        specAdd [Tensor.init da true [], Tensor.init db true []] 0 1 = some (s2, ic) ∧
        Tensor.backward s2 ic (some seed) = .ok s3 ∧
        gradAt s3 0 = some seed ∧ gradAt s3 1 = some seed) := by
  constructor
  · intro fuel s i n g gr2 hsi hrg hacc
    exact backward_step fuel s i n g gr2 hsi hrg hacc
  · intro da db seed hwa hwb hws hsba hssa
    have hbop := NDA.bop_same_shape (· + ·) da db hwa hwb hsba
    have hwc : (NDA.ewSame (· + ·) da db).wfa = true := NDA.ewSame_wf _ da db hwa hwb hsba
    have hsc : (NDA.ewSame (· + ·) da db).shape = da.shape := NDA.ewSame_shape _ da db hsba
    have hspec : specAdd [Tensor.init da true [], Tensor.init db true []] 0 1 =
        some ([Tensor.init da true [], Tensor.init db true [],
          Tensor.init (NDA.ewSame (· + ·) da db) true
            [⟨0, fun g => NDA.breduce g da.shape⟩,
             ⟨1, fun g => NDA.breduce g db.shape⟩]], 2) := by
      have h0 : specAdd [Tensor.init da true [], Tensor.init db true []] 0 1 =
          match NDA.bop (· + ·) da db with
          | some dataC =>
            some ([Tensor.init da true [], Tensor.init db true [],
              Tensor.init dataC true
                [⟨0, fun g => NDA.breduce g da.shape⟩,
                 ⟨1, fun g => NDA.breduce g db.shape⟩]], 2)
          | none => none := rfl
      rw [h0, hbop]
    have haccC : accumulate (Tensor.init (NDA.ewSame (· + ·) da db) true
        [⟨0, fun g => NDA.breduce g da.shape⟩,
         ⟨1, fun g => NDA.breduce g db.shape⟩]) seed = .ok seed :=
      accumulate_of_grad _ seed _ seed rfl
        (NDA.iaddArr_zero (NDA.ewSame (· + ·) da db) seed hwc hws (hssa.trans hsc.symm))
    have haccA : accumulate (Tensor.init da true []) seed = .ok seed :=
      accumulate_of_grad _ seed _ seed rfl (NDA.iaddArr_zero da seed hwa hws hssa)
    have haccB : accumulate (Tensor.init db true []) seed = .ok seed :=
      accumulate_of_grad _ seed _ seed rfl
        (NDA.iaddArr_zero db seed hwb hws (hssa.trans hsba.symm))
    have hbr1 : NDA.breduce seed da.shape = seed := by
      rw [← hssa]
      exact NDA.breduce_self seed hws
    have hbr2 : NDA.breduce seed db.shape = seed := by
      rw [hsba]
      exact hbr1
    refine ⟨_, 2, [{ Tensor.init da true [] with grad := some seed },
      { Tensor.init db true [] with grad := some seed },
      { Tensor.init (NDA.ewSame (· + ·) da db) true
          [⟨0, fun g => NDA.breduce g da.shape⟩,
           ⟨1, fun g => NDA.breduce g db.shape⟩] with grad := some seed }],
      hspec, ?_, rfl, rfl⟩
    unfold Tensor.backward
    rw [backward_step 2 _ 2 _ seed seed rfl rfl haccC]
    show List.foldlM (fun (st : Store) (d : Dep) =>
          backwardAux 2 st d.tensorId (some (d.gradFn seed)))
        [Tensor.init da true [], Tensor.init db true [],
         { Tensor.init (NDA.ewSame (· + ·) da db) true
             [⟨0, fun g => NDA.breduce g da.shape⟩,
              ⟨1, fun g => NDA.breduce g db.shape⟩] with grad := some seed }]
        ([⟨0, fun g => NDA.breduce g da.shape⟩,
          ⟨1, fun g => NDA.breduce g db.shape⟩] : List Dep)
      = _
    rw [List.foldlM_cons]
    show (backwardAux 2
        [Tensor.init da true [], Tensor.init db true [],
         { Tensor.init (NDA.ewSame (· + ·) da db) true
             [⟨0, fun g => NDA.breduce g da.shape⟩,
              ⟨1, fun g => NDA.breduce g db.shape⟩] with grad := some seed }]
        0 (some (NDA.breduce seed da.shape)) >>= fun st =>
          List.foldlM (fun (st : Store) (d : Dep) =>
              backwardAux 2 st d.tensorId (some (d.gradFn seed)))
            st ([⟨1, fun g => NDA.breduce g db.shape⟩] : List Dep))
      = _
    rw [hbr1]
    have hleafA := backward_leaf 1
      [Tensor.init da true [], Tensor.init db true [],
       { Tensor.init (NDA.ewSame (· + ·) da db) true
           [⟨0, fun g => NDA.breduce g da.shape⟩,
            ⟨1, fun g => NDA.breduce g db.shape⟩] with grad := some seed }]
      0 (Tensor.init da true []) seed seed rfl rfl rfl haccA
    rw [show (1 : Nat) + 1 = 2 from rfl] at hleafA
    rw [hleafA, exceptOk_bind]
    show List.foldlM (fun (st : Store) (d : Dep) =>
          backwardAux 2 st d.tensorId (some (d.gradFn seed)))
        [{ Tensor.init da true [] with grad := some seed }, Tensor.init db true [],
         { Tensor.init (NDA.ewSame (· + ·) da db) true
             [⟨0, fun g => NDA.breduce g da.shape⟩,
              ⟨1, fun g => NDA.breduce g db.shape⟩] with grad := some seed }]
        ([⟨1, fun g => NDA.breduce g db.shape⟩] : List Dep)
      = _
    rw [List.foldlM_cons]
    show (backwardAux 2
        [{ Tensor.init da true [] with grad := some seed }, Tensor.init db true [],
         { Tensor.init (NDA.ewSame (· + ·) da db) true
             [⟨0, fun g => NDA.breduce g da.shape⟩,
              ⟨1, fun g => NDA.breduce g db.shape⟩] with grad := some seed }]
        1 (some (NDA.breduce seed db.shape)) >>= fun st =>
          List.foldlM (fun (st : Store) (d : Dep) =>
              backwardAux 2 st d.tensorId (some (d.gradFn seed)))
            st ([] : List Dep))
      = _
    rw [hbr2]
    have hleafB := backward_leaf 1
      [{ Tensor.init da true [] with grad := some seed }, Tensor.init db true [],
       { Tensor.init (NDA.ewSame (· + ·) da db) true
           [⟨0, fun g => NDA.breduce g da.shape⟩,
            ⟨1, fun g => NDA.breduce g db.shape⟩] with grad := some seed }]
      1 (Tensor.init db true []) seed seed rfl rfl rfl haccB
    rw [show (1 : Nat) + 1 = 2 from rfl] at hleafB
    rw [hleafB, exceptOk_bind]
    rfl

theorem c4_backward_depth_first_witness :
    (backwardAux (0 + 1) [Tensor.init (NDA.scalar 2) true []] 0 (some (NDA.scalar 1)) =
      (Tensor.init (NDA.scalar 2) true []).dependsOn.foldlM
        (fun st d => backwardAux 0 st d.tensorId (some (d.gradFn (NDA.scalar 1))))
        ([Tensor.init (NDA.scalar 2) true []].set 0
          { Tensor.init (NDA.scalar 2) true [] with grad := some (NDA.scalar 1) })) ∧
    (∃ (s2 : Store) (ic : Nat) (s3 : Store),
      specAdd [Tensor.init (NDA.scalar 3) true [], Tensor.init (NDA.scalar 4) true []]
          0 1 = some (s2, ic) ∧
      Tensor.backward s2 ic (some (NDA.scalar 1)) = .ok s3 ∧
      gradAt s3 0 = some (NDA.scalar 1) ∧ gradAt s3 1 = some (NDA.scalar 1)) :=
  ⟨c4_backward_depth_first.1 0 [Tensor.init (NDA.scalar 2) true []] 0
      (Tensor.init (NDA.scalar 2) true []) (NDA.scalar 1) (NDA.scalar 1) rfl rfl rfl,
   c4_backward_depth_first.2 (NDA.scalar 3) (NDA.scalar 4) (NDA.scalar 1)
      rfl rfl rfl rfl rfl⟩


end Autograd
